import Mathlib

open scoped List

/-!
Shallow embedding of the UI-region detection script `src/python/detect_ui.py`.

The script proposes candidate rectangular regions from an image with five
generators, pools them, removes overlapping candidates largest-first
(`remove_overlapping_boxes`), filters by UI-plausibility (`filter_ui_boxes`),
and enriches each surviving region with a label `UI<i+1>`, a color
fingerprint and OCR text.  Image-library calls (cv2, pytesseract) are
external collaborators: they are modelled as parameters supplying their
observable results (contour measurements, line segments, color means, OCR
outcomes), while every piece of arithmetic and control flow that the script
itself performs is translated directly.  Python integers are modelled by ℤ,
Python true division by division in ℚ.
-/

/-- Axis-aligned rectangle as the script's box dict `{x, y, width, height}`.
Fields are Python integers, so ℤ. -/
structure Box where
  x : ℤ
  y : ℤ
  width : ℤ
  height : ℤ
deriving DecidableEq

/-- Area `width * height` used as the sort key `lambda x: x['width'] * x['height']`. -/
def Box.area (b : Box) : ℤ := b.width * b.height

/-- Embedding of the inner function `calculate_overlap(box1, box2)` of
`remove_overlapping_boxes`: intersection-over-union of two boxes, `0` when
the open intersection test `left < right and top < bottom` fails.
Python's `/` on the two integer areas is true division, modelled in ℚ. -/
def calculate_overlap (box1 box2 : Box) : ℚ :=
  let left := max box1.x box2.x
  let top := max box1.y box2.y
  let right := min (box1.x + box1.width) (box2.x + box2.width)
  let bottom := min (box1.y + box1.height) (box2.y + box2.height)
  if left < right ∧ top < bottom then
    let intersection : ℤ := (right - left) * (bottom - top)
    let union : ℤ := box1.area + box2.area - intersection
    (intersection : ℚ) / (union : ℚ)
  else 0

/-- Comparison passed to the sort in `remove_overlapping_boxes`:
`sorted(boxes, key=lambda x: x['width'] * x['height'], reverse=True)` keeps
`a` before `b` when `b`'s area is at most `a`'s. -/
def areaDescLE (a b : Box) : Bool := decide (b.area ≤ a.area)

/-- Embedding of Python's stable `sorted(..., reverse=True)` on the area key.
`List.mergeSort` is a stable sort, so it produces the identical ordering. -/
def sortBoxesByAreaDesc (boxes : List Box) : List Box :=
  boxes.mergeSort areaDescLE

/-- Test of the loop body of `remove_overlapping_boxes`: the candidate `box`
is marked `is_duplicate` when some already-kept box overlaps it by more than
the threshold. -/
def conflictsWith (overlap_threshold : ℚ) (box : Box) (filtered_boxes : List Box) : Bool :=
  filtered_boxes.any fun existing_box =>
    decide (overlap_threshold < calculate_overlap box existing_box)

/-- Greedy loop of `remove_overlapping_boxes`: iterate over the sorted
candidates, appending a box to `filtered_boxes` unless it conflicts with a
previously accepted box. -/
def nmsGo (overlap_threshold : ℚ) : List Box → List Box → List Box
  | [], filtered_boxes => filtered_boxes
  | box :: rest, filtered_boxes =>
    if conflictsWith overlap_threshold box filtered_boxes then
      nmsGo overlap_threshold rest filtered_boxes
    else
      nmsGo overlap_threshold rest (filtered_boxes ++ [box])

/-- Embedding of `remove_overlapping_boxes(boxes, overlap_threshold=0.5)`:
return `[]` on the empty pool, otherwise sort descending by area and run the
greedy suppression loop. -/
def remove_overlapping_boxes (boxes : List Box) (overlap_threshold : ℚ := 1/2) : List Box :=
  if boxes = [] then []
  else nmsGo overlap_threshold (sortBoxesByAreaDesc boxes) []

/-- Predicate of `filter_ui_boxes`: the conjunction
`w >= 50 and h >= 30 and w <= image.shape[1]*0.9 and h <= image.shape[0]*0.9
and w/h <= 15 and h/w <= 15`.  `imgH` is `image.shape[0]`, `imgW` is
`image.shape[1]`; the divisions are Python true division, modelled in ℚ
(`and` short-circuits in Python, so the divisors are at least 30 and 50
whenever the divisions are reached). -/
def uiBoxPred (imgH imgW : ℕ) (box : Box) : Bool :=
  decide (50 ≤ box.width) && decide (30 ≤ box.height) &&
  decide ((box.width : ℚ) ≤ (imgW : ℚ) * (9/10)) &&
  decide ((box.height : ℚ) ≤ (imgH : ℚ) * (9/10)) &&
  decide ((box.width : ℚ) / (box.height : ℚ) ≤ 15) &&
  decide ((box.height : ℚ) / (box.width : ℚ) ≤ 15)

/-- Embedding of `filter_ui_boxes(boxes)`: keep exactly the boxes satisfying
the plausibility predicate, in input order. -/
def filter_ui_boxes (imgH imgW : ℕ) (boxes : List Box) : List Box :=
  boxes.filter (uiBoxPred imgH imgW)

/-- Observable measurements of one contour in `detect_edges_multi_threshold`:
`cv2.contourArea(contour)` (a float, modelled in ℚ), `len(approx)` for the
approximated polygon, and the `cv2.boundingRect(approx)` fields.  The cv2
calls producing them are external collaborators. -/
structure Contour where
  area : ℚ
  nvert : ℕ
  x : ℤ
  y : ℤ
  w : ℤ
  h : ℤ
deriving DecidableEq

/-- Box dict appended by `detect_edges_multi_threshold` for an accepted
contour. -/
def contourBox (c : Contour) : Box := ⟨c.x, c.y, c.w, c.h⟩

/-- Acceptance test of `detect_edges_multi_threshold`: the outer guard
`area > 500 and len(approx) >= 4` followed by the inner guard
`w > 30 and h > 30 and w/h < 10 and h/w < 10` (Python true division,
modelled in ℚ). -/
def edgeContourAccepted (c : Contour) : Bool :=
  if 500 < c.area ∧ 4 ≤ c.nvert then
    decide (30 < c.w ∧ 30 < c.h ∧ (c.w : ℚ) / (c.h : ℚ) < 10 ∧ (c.h : ℚ) / (c.w : ℚ) < 10)
  else false

/-- Embedding of `detect_edges_multi_threshold(gray)`.  One entry of
`passes` holds the contour measurements found for one Canny threshold pair
(the code runs the pairs `(30,100), (50,150), (70,200)`); the boxes of the
accepted contours of all passes are concatenated in iteration order. -/
def detect_edges_multi_threshold (passes : List (List Contour)) : List Box :=
  passes.flatMap fun contours => (contours.filter edgeContourAccepted).map contourBox

/-- Endpoints `x1, y1, x2, y2` of one segment returned by
`cv2.HoughLinesP` in `detect_lines_boxes`. -/
structure Seg where
  x1 : ℤ
  y1 : ℤ
  x2 : ℤ
  y2 : ℤ
deriving DecidableEq

/-- Tuple `(min(x1,x2), max(x1,x2), y1)` stored in `horizontal_lines`. -/
structure HLine where
  lo : ℤ
  hi : ℤ
  y : ℤ
deriving DecidableEq

/-- Tuple `(min(y1,y2), max(y1,y2), x1)` stored in `vertical_lines`. -/
structure VLine where
  lo : ℤ
  hi : ℤ
  x : ℤ
deriving DecidableEq

/-- Classification pass of `detect_lines_boxes`: a segment with
`abs(y2 - y1) < 10` goes to `horizontal_lines`; the `elif` branch sends a
segment with `abs(x2 - x1) < 10` to `vertical_lines`. -/
def horizontalLines (segs : List Seg) : List HLine :=
  segs.filterMap fun l =>
    if |l.y2 - l.y1| < 10 then some ⟨min l.x1 l.x2, max l.x1 l.x2, l.y1⟩ else none

/-- Vertical counterpart of the classification pass (the `elif` branch). -/
def verticalLines (segs : List Seg) : List VLine :=
  segs.filterMap fun l =>
    if |l.y2 - l.y1| < 10 then none
    else if |l.x2 - l.x1| < 10 then some ⟨min l.y1 l.y2, max l.y1 l.y2, l.x1⟩ else none

/-- Embedding of `detect_lines_boxes(gray)` downstream of the cv2 calls:
`lines` is the result of `cv2.HoughLinesP` (`none` models Python `None`).
For every horizontal/vertical pair passing the 20px corner tolerance, the
rectangle `x = v.x, y = h.y, w = abs(h.hi - h.lo), h = abs(v.hi - v.lo)` is
appended when both `w > 30` and `h > 30`. -/
def detect_lines_boxes (lines : Option (List Seg)) : List Box :=
  match lines with
  | none => []
  | some segs =>
    (horizontalLines segs).flatMap fun h_line =>
      (verticalLines segs).filterMap fun v_line =>
        if |h_line.y - v_line.lo| < 20 ∨ |h_line.y - v_line.hi| < 20 then
          if 30 < |h_line.hi - h_line.lo| ∧ 30 < |v_line.hi - v_line.lo| then
            some ⟨v_line.x, h_line.y, |h_line.hi - h_line.lo|, |v_line.hi - v_line.lo|⟩
          else none
        else none

/-- Little-endian decimal digits of `n`, computed with explicit fuel so the
kernel can evaluate it; `decimalDigits n n` is the digit list of `n`. -/
def decimalDigits : ℕ → ℕ → List ℕ
  | 0, _ => []
  | _ + 1, 0 => []
  | fuel + 1, m + 1 => (m + 1) % 10 :: decimalDigits fuel ((m + 1) / 10)

/-- Decimal rendering of a natural number, as Python's string formatting of
an `int` produces it (most significant digit first). -/
def decimalChars (n : ℕ) : List Char :=
  ((decimalDigits n n).reverse).map Nat.digitChar

/-- Label `f"UI{i+1}"` attached to the region at loop index `i` (this
function is applied to `i+1`). -/
def uiLabel (n : ℕ) : String :=
  "UI" ++ String.mk (decimalChars n)

/-- Output record of the enrichment loop: the copied box geometry plus
`label`, `color_fingerprint` and `text`.  The fingerprint is the rounded
BGR channel-mean list built by `get_color_fingerprint`, modelled as the
opaque value the external color service returns. -/
structure LabeledBox where
  x : ℤ
  y : ℤ
  width : ℤ
  height : ℤ
  label : String
  color_fingerprint : List ℚ
  text : String
deriving DecidableEq

/-- One iteration of the enrichment loop at index `i`: copy the box, attach
`UI{i+1}`, the color fingerprint of the box's crop, and the OCR text, where
`ocr i = none` models `extract_text_from_roi` raising (the `except` branch
stores `""`) and `ocr i = some t` models it returning `t`. -/
def enrichOne (fp : Box → List ℚ) (ocr : ℕ → Option String) (i : ℕ) (box : Box) : LabeledBox :=
  { x := box.x, y := box.y, width := box.width, height := box.height,
    label := uiLabel (i + 1),
    color_fingerprint := fp box,
    text := match ocr i with
      | some t => t
      | none => "" }

/-- Enrichment loop from index `i` on, mirroring
`for i, box in enumerate(final_boxes)`. -/
def enrichFrom (fp : Box → List ℚ) (ocr : ℕ → Option String) : ℕ → List Box → List LabeledBox
  | _, [] => []
  | i, box :: rest => enrichOne fp ocr i box :: enrichFrom fp ocr (i + 1) rest

/-- Embedding of the whole enrichment loop producing `labeled_boxes`. -/
def labelBoxes (fp : Box → List ℚ) (ocr : ℕ → Option String) (boxes : List Box) : List LabeledBox :=
  enrichFrom fp ocr 0 boxes

/-- Embedding of the script's top-level guards: with fewer than two
`sys.argv` entries it prints `[]` and exits with status `0`; when
`cv2.imread` (modelled by `imread`) cannot decode the image it prints `[]`
and exits with status `1`; otherwise the detection pipeline runs on the
image and the script ends with status `0`.  The result pair is the emitted
region list and the process exit status. -/
def pyMain {Image LB : Type} (argv : List String) (imread : String → Option Image)
    (pipeline : Image → List LB) : List LB × ℕ :=
  if argv.length < 2 then ([], 0)
  else
    match imread (argv.getD 1 "") with
    | none => ([], 1)
    | some image => (pipeline image, 0)

/-- Replacement loop implementing Python's `str.replace` on character
lists for a non-empty pattern: scan left to right, replacing each
non-overlapping occurrence of `pat` by `rep`.  The fuel argument is
instantiated with the length of the scanned list, which bounds the
recursion since a match consumes at least one character. -/
def replaceFuel (pat rep : List Char) : ℕ → List Char → List Char
  | 0, s => s
  | _ + 1, [] => []
  | fuel + 1, c :: rest =>
    if pat.isPrefixOf (c :: rest) then rep ++ replaceFuel pat rep fuel ((c :: rest).drop pat.length)
    else c :: replaceFuel pat rep fuel rest

/-- Embedding of Python's `s.replace(pat, rep)` for a non-empty pattern:
every occurrence is replaced, not only a suffix. -/
def pyReplace (s pat rep : String) : String :=
  String.mk (replaceFuel pat.data rep.data s.data.length s.data)

/-- Embedding of `output_path = image_path.replace('.png', '_annotated.png')`. -/
def output_path (image_path : String) : String :=
  pyReplace image_path ".png" "_annotated.png"

/-- Region A of the spec's overlap-resolution example. -/
def boxA : Box := ⟨0, 0, 100, 100⟩

/-- Region B of the spec's overlap-resolution example. -/
def boxB : Box := ⟨10, 10, 90, 90⟩

theorem calculate_overlap_comm (b1 b2 : Box) :
    calculate_overlap b1 b2 = calculate_overlap b2 b1 := by
  simp only [calculate_overlap, Box.area]
  rw [max_comm b2.x b1.x, max_comm b2.y b1.y,
    min_comm (b2.x + b2.width) (b1.x + b1.width),
    min_comm (b2.y + b2.height) (b1.y + b1.height),
    add_comm (b2.width * b2.height) (b1.width * b1.height)]

theorem conflictsWith_eq_false_iff (thr : ℚ) (box : Box) (acc : List Box) :
    conflictsWith thr box acc = false ↔ ∀ e ∈ acc, calculate_overlap box e ≤ thr := by
  simp [conflictsWith, not_lt]

theorem nmsGo_pairwise (thr : ℚ) (boxes : List Box) :
    ∀ acc : List Box, (acc.Pairwise fun a b => calculate_overlap a b ≤ thr) →
      (nmsGo thr boxes acc).Pairwise fun a b => calculate_overlap a b ≤ thr := by
  induction boxes with
  | nil => intro acc h; exact h
  | cons box rest ih =>
    intro acc h
    rw [nmsGo]
    split
    · exact ih _ h
    · rename_i hc
      refine ih _ ?_
      rw [List.pairwise_append]
      refine ⟨h, List.pairwise_singleton _ _, ?_⟩
      intro a ha b hb
      have hb' : b = box := by simpa using hb
      have hfalse : conflictsWith thr box acc = false := by simpa using hc
      have hall := (conflictsWith_eq_false_iff thr box acc).mp hfalse a ha
      rw [hb', calculate_overlap_comm]
      exact hall

theorem nmsGo_exists_sublist (thr : ℚ) (boxes : List Box) :
    ∀ acc : List Box, ∃ s, s <+ boxes ∧ nmsGo thr boxes acc = acc ++ s := by
  induction boxes with
  | nil => intro acc; exact ⟨[], List.nil_sublist _, by simp [nmsGo]⟩
  | cons box rest ih =>
    intro acc
    rw [nmsGo]
    split
    · obtain ⟨s, hs, he⟩ := ih acc
      exact ⟨s, hs.cons _, he⟩
    · obtain ⟨s, hs, he⟩ := ih (acc ++ [box])
      exact ⟨box :: s, hs.cons₂ _, by rw [he, List.append_assoc]; rfl⟩

theorem nmsGo_complete (thr : ℚ) (boxes : List Box) :
    ∀ (acc : List Box) (b : Box), b ∈ boxes →
      b ∈ nmsGo thr boxes acc ∨ ∃ k ∈ nmsGo thr boxes acc, thr < calculate_overlap b k := by
  induction boxes with
  | nil => intro acc b h; cases h
  | cons box rest ih =>
    intro acc b hb
    rw [nmsGo]
    rcases List.mem_cons.mp hb with rfl | hbr
    · split
      · rename_i hc
        have hc' : ∃ e ∈ acc, thr < calculate_overlap b e := by
          simpa [conflictsWith] using hc
        obtain ⟨e, he, hlt⟩ := hc'
        right
        obtain ⟨s, _, hout⟩ := nmsGo_exists_sublist thr rest acc
        exact ⟨e, by rw [hout]; exact List.mem_append_left _ he, hlt⟩
      · left
        obtain ⟨s, _, hout⟩ := nmsGo_exists_sublist thr rest (acc ++ [b])
        rw [hout]
        exact List.mem_append_left _ (List.mem_append_right _ (by simp))
    · split
      · exact ih acc b hbr
      · exact ih (acc ++ [box]) b hbr

theorem areaDescLE_trans (a b c : Box) : areaDescLE a b → areaDescLE b c → areaDescLE a c := by
  simp only [areaDescLE, decide_eq_true_eq]
  exact fun hab hbc => le_trans hbc hab

theorem areaDescLE_total (a b : Box) : areaDescLE a b || areaDescLE b a := by
  simpa [areaDescLE, Bool.or_eq_true, decide_eq_true_eq] using le_total b.area a.area

theorem sortBoxesByAreaDesc_perm (boxes : List Box) :
    sortBoxesByAreaDesc boxes ~ boxes :=
  List.mergeSort_perm boxes areaDescLE

theorem sortBoxesByAreaDesc_sorted (boxes : List Box) :
    (sortBoxesByAreaDesc boxes).Pairwise fun a b => b.area ≤ a.area :=
  (List.sorted_mergeSort areaDescLE_trans areaDescLE_total boxes).imp
    fun h => by simpa [areaDescLE, decide_eq_true_eq] using h

theorem sortBoxesByAreaDesc_stable (boxes c : List Box)
    (hc : c.Pairwise fun a b => b.area ≤ a.area) (hsub : c <+ boxes) :
    c <+ sortBoxesByAreaDesc boxes :=
  List.sublist_mergeSort areaDescLE_trans areaDescLE_total
    (hc.imp fun h => by simpa [areaDescLE, decide_eq_true_eq] using h) hsub

theorem remove_overlapping_boxes_sublist (boxes : List Box) (thr : ℚ) :
    remove_overlapping_boxes boxes thr <+ sortBoxesByAreaDesc boxes := by
  rw [remove_overlapping_boxes]
  split
  · exact List.nil_sublist _
  · obtain ⟨s, hs, he⟩ := nmsGo_exists_sublist thr (sortBoxesByAreaDesc boxes) []
    rw [he]
    simpa using hs

theorem remove_overlapping_boxes_pairwise (boxes : List Box) (thr : ℚ) :
    (remove_overlapping_boxes boxes thr).Pairwise fun a b => calculate_overlap a b ≤ thr := by
  rw [remove_overlapping_boxes]
  split
  · simp
  · exact nmsGo_pairwise thr _ [] List.Pairwise.nil

theorem remove_overlapping_boxes_complete (boxes : List Box) (thr : ℚ) (b : Box)
    (hb : b ∈ boxes) :
    b ∈ remove_overlapping_boxes boxes thr
      ∨ ∃ k ∈ remove_overlapping_boxes boxes thr, thr < calculate_overlap b k := by
  rw [remove_overlapping_boxes]
  split
  · rename_i h
    exact absurd (h ▸ hb) (List.not_mem_nil b)
  · exact nmsGo_complete thr _ [] b ((sortBoxesByAreaDesc_perm boxes).mem_iff.mpr hb)

theorem sortBoxesByAreaDesc_pair_AB : sortBoxesByAreaDesc [boxA, boxB] = [boxA, boxB] := by
  unfold sortBoxesByAreaDesc
  exact List.mergeSort_of_sorted (by decide)

/-- C1: `remove_overlapping_boxes` sorts the pool by descending area with a
stable sort and iterates in that order, keeping a candidate exactly when its
IoU with every already-kept region is at most `0.5`: the kept list is a
sublist of the sorted pool, is pairwise below the threshold, and every
pooled box is either kept or conflicts (IoU above the threshold) with a
kept box; on the pool `[A, B]` with `A = {x:0,y:0,w:100,h:100}` and
`B = {x:10,y:10,w:90,h:90}` (IoU `81/100 > 1/2`), only `A` is kept. -/
theorem c1_dedup_sorts_desc_and_keeps_A_drops_B :
    (remove_overlapping_boxes [boxA, boxB] = [boxA]
      ∧ calculate_overlap boxB boxA = 81/100 ∧ (1:ℚ)/2 < calculate_overlap boxB boxA)
    ∧ (∀ boxes : List Box, sortBoxesByAreaDesc boxes ~ boxes
        ∧ ((sortBoxesByAreaDesc boxes).Pairwise fun a b => b.area ≤ a.area))
    ∧ (∀ boxes c : List Box, (c.Pairwise fun a b => b.area ≤ a.area) → c <+ boxes →
        c <+ sortBoxesByAreaDesc boxes)
    ∧ (∀ (boxes : List Box) (thr : ℚ),
        remove_overlapping_boxes boxes thr <+ sortBoxesByAreaDesc boxes)
    ∧ (∀ (boxes : List Box) (thr : ℚ),
        (remove_overlapping_boxes boxes thr).Pairwise fun a b => calculate_overlap a b ≤ thr)
    ∧ (∀ (boxes : List Box) (thr : ℚ) (b : Box), b ∈ boxes →
        b ∈ remove_overlapping_boxes boxes thr
          ∨ ∃ k ∈ remove_overlapping_boxes boxes thr, thr < calculate_overlap b k) := by
  refine ⟨⟨?_, ?_, ?_⟩, ?_, ?_, ?_, ?_, ?_⟩
  · rw [remove_overlapping_boxes, if_neg (by decide), sortBoxesByAreaDesc_pair_AB]
    norm_num [nmsGo, conflictsWith, calculate_overlap, Box.area, boxA, boxB, max_def, min_def]
  · norm_num [calculate_overlap, Box.area, boxA, boxB, max_def, min_def]
  · norm_num [calculate_overlap, Box.area, boxA, boxB, max_def, min_def]
  · exact fun boxes => ⟨sortBoxesByAreaDesc_perm boxes, sortBoxesByAreaDesc_sorted boxes⟩
  · exact sortBoxesByAreaDesc_stable
  · exact remove_overlapping_boxes_sublist
  · exact remove_overlapping_boxes_pairwise
  · exact remove_overlapping_boxes_complete

/-- Witness for C1: the hypotheses of the stability clause and of the
keep-or-conflict clause hold at the concrete two-box pool. -/
theorem c1_witness :
    ([boxB] <+ sortBoxesByAreaDesc [boxA, boxB])
    ∧ (boxB ∈ remove_overlapping_boxes [boxA, boxB] (1/2)
        ∨ ∃ k ∈ remove_overlapping_boxes [boxA, boxB] (1/2),
            (1:ℚ)/2 < calculate_overlap boxB k) :=
  ⟨c1_dedup_sorts_desc_and_keeps_A_drops_B.2.2.1 [boxA, boxB] [boxB]
      (List.pairwise_singleton _ _) ((List.Sublist.refl _).cons _),
    c1_dedup_sorts_desc_and_keeps_A_drops_B.2.2.2.2.2 [boxA, boxB] (1/2) boxB (by decide)⟩

/-- C2: whatever candidate pool the generators produced, the final region
list (deduplication followed by the plausibility filter) has pairwise IoU
at most `0.5`, for every pair of distinct regions in it. -/
theorem c2_final_output_pairwise_iou_le_half :
    ∀ (boxes : List Box) (imgH imgW : ℕ),
      ((filter_ui_boxes imgH imgW (remove_overlapping_boxes boxes)).Pairwise
        fun a b => calculate_overlap a b ≤ 1/2)
      ∧ ∀ a ∈ filter_ui_boxes imgH imgW (remove_overlapping_boxes boxes),
          ∀ b ∈ filter_ui_boxes imgH imgW (remove_overlapping_boxes boxes),
            a ≠ b → calculate_overlap a b ≤ 1/2 := by
  intro boxes imgH imgW
  have hsub : filter_ui_boxes imgH imgW (remove_overlapping_boxes boxes)
      <+ remove_overlapping_boxes boxes :=
    List.filter_sublist (remove_overlapping_boxes boxes)
  have hp : (filter_ui_boxes imgH imgW (remove_overlapping_boxes boxes)).Pairwise
      fun a b => calculate_overlap a b ≤ 1/2 :=
    List.Pairwise.sublist hsub (remove_overlapping_boxes_pairwise boxes (1/2))
  refine ⟨hp, ?_⟩
  intro a ha b hb hne
  exact List.Pairwise.forall
    (fun x y h => by rwa [calculate_overlap_comm]) hp ha hb hne

/-- Witness for C2: two kept, well-separated regions of a concrete pool
have IoU at most `0.5`. -/
theorem c2_witness :
    calculate_overlap ⟨0, 0, 100, 100⟩ ⟨500, 500, 100, 50⟩ ≤ (1:ℚ)/2 := by
  have hsort : sortBoxesByAreaDesc [⟨0, 0, 100, 100⟩, ⟨500, 500, 100, 50⟩] =
      [⟨0, 0, 100, 100⟩, ⟨500, 500, 100, 50⟩] := by
    unfold sortBoxesByAreaDesc
    exact List.mergeSort_of_sorted (by decide)
  have hrem : remove_overlapping_boxes [⟨0, 0, 100, 100⟩, ⟨500, 500, 100, 50⟩] =
      [⟨0, 0, 100, 100⟩, ⟨500, 500, 100, 50⟩] := by
    rw [remove_overlapping_boxes, if_neg (by decide), hsort]
    norm_num [nmsGo, conflictsWith, calculate_overlap, Box.area, max_def, min_def]
  have hout : filter_ui_boxes 1000 1000
      (remove_overlapping_boxes [⟨0, 0, 100, 100⟩, ⟨500, 500, 100, 50⟩]) =
      [⟨0, 0, 100, 100⟩, ⟨500, 500, 100, 50⟩] := by
    rw [hrem]
    norm_num [filter_ui_boxes, uiBoxPred]
  exact (c2_final_output_pairwise_iou_le_half
      [⟨0, 0, 100, 100⟩, ⟨500, 500, 100, 50⟩] 1000 1000).2
    ⟨0, 0, 100, 100⟩ (by rw [hout]; decide)
    ⟨500, 500, 100, 50⟩ (by rw [hout]; decide) (by decide)

/-- C3: the plausibility filter keeps a region exactly when
`width ≥ 50`, `height ≥ 30`, `width ≤ 0.9·imageWidth`,
`height ≤ 0.9·imageHeight`, `width/height ≤ 15` and `height/width ≤ 15`,
and the surviving regions keep their input order (the output is a sublist
of the input). -/
theorem c3_filter_membership_and_order :
    ∀ (imgH imgW : ℕ) (boxes : List Box),
      (filter_ui_boxes imgH imgW boxes <+ boxes)
      ∧ ∀ b : Box, b ∈ filter_ui_boxes imgH imgW boxes ↔
          b ∈ boxes ∧ 50 ≤ b.width ∧ 30 ≤ b.height
            ∧ (b.width : ℚ) ≤ (imgW : ℚ) * (9/10)
            ∧ (b.height : ℚ) ≤ (imgH : ℚ) * (9/10)
            ∧ (b.width : ℚ) / (b.height : ℚ) ≤ 15
            ∧ (b.height : ℚ) / (b.width : ℚ) ≤ 15 := by
  intro imgH imgW boxes
  refine ⟨List.filter_sublist boxes, ?_⟩
  intro b
  simp [filter_ui_boxes, uiBoxPred, List.mem_filter, Bool.and_eq_true,
    decide_eq_true_eq, and_assoc]

/-- Witness for C3: a 100×100 box inside a 1000×1000 image passes the
filter, via the membership characterization. -/
theorem c3_witness :
    (⟨0, 0, 100, 100⟩ : Box) ∈ filter_ui_boxes 1000 1000 [⟨0, 0, 100, 100⟩] :=
  ((c3_filter_membership_and_order 1000 1000 [⟨0, 0, 100, 100⟩]).2 ⟨0, 0, 100, 100⟩).mpr
    ⟨by decide, by decide, by decide, by norm_num, by norm_num, by norm_num, by norm_num⟩

/-- C8: the multi-threshold edge generator accepts a contour exactly when
its area exceeds 500, its approximated polygon has at least 4 vertices,
its bounding width and height both exceed 30, and both width/height and
height/width are below 10 (the code's strict reading of "within 10:1 in
either direction"); the emitted boxes are exactly the bounding boxes of
accepted contours across the threshold passes. -/
theorem c8_edge_acceptance_characterization :
    (∀ c : Contour, edgeContourAccepted c = true ↔
        500 < c.area ∧ 4 ≤ c.nvert ∧ 30 < c.w ∧ 30 < c.h
          ∧ (c.w : ℚ) / (c.h : ℚ) < 10 ∧ (c.h : ℚ) / (c.w : ℚ) < 10)
    ∧ ∀ (passes : List (List Contour)) (b : Box),
        b ∈ detect_edges_multi_threshold passes ↔
          ∃ contours ∈ passes, ∃ c ∈ contours,
            edgeContourAccepted c = true ∧ contourBox c = b := by
  constructor
  · intro c
    rw [edgeContourAccepted]
    split
    · rename_i h
      simp only [decide_eq_true_eq]
      constructor
      · exact fun hx => ⟨h.1, h.2, hx.1, hx.2.1, hx.2.2.1, hx.2.2.2⟩
      · exact fun hx => ⟨hx.2.2.1, hx.2.2.2.1, hx.2.2.2.2.1, hx.2.2.2.2.2⟩
    · rename_i h
      constructor
      · intro hx
        exact absurd hx (by simp)
      · rintro ⟨h1, h2, -⟩
        exact absurd ⟨h1, h2⟩ h
  · intro passes b
    constructor
    · intro hb
      obtain ⟨contours, hcp, hb2⟩ := List.mem_flatMap.mp hb
      obtain ⟨c, hcf, hcb⟩ := List.mem_map.mp hb2
      obtain ⟨hcm, hacc⟩ := List.mem_filter.mp hcf
      exact ⟨contours, hcp, c, hcm, hacc, hcb⟩
    · rintro ⟨contours, hcp, c, hcm, hacc, hcb⟩
      exact List.mem_flatMap.mpr
        ⟨contours, hcp, List.mem_map.mpr ⟨c, List.mem_filter.mpr ⟨hcm, hacc⟩, hcb⟩⟩

/-- Witness for C8: a contour with area 600, 4 vertices and a 40×40
bounding box is accepted and its box is emitted. -/
theorem c8_witness :
    (⟨7, 8, 40, 40⟩ : Box) ∈ detect_edges_multi_threshold [[⟨600, 4, 7, 8, 40, 40⟩]] :=
  (c8_edge_acceptance_characterization.2 [[⟨600, 4, 7, 8, 40, 40⟩]] ⟨7, 8, 40, 40⟩).mpr
    ⟨[⟨600, 4, 7, 8, 40, 40⟩], by simp, ⟨600, 4, 7, 8, 40, 40⟩, by simp,
      (c8_edge_acceptance_characterization.1 ⟨600, 4, 7, 8, 40, 40⟩).mpr
        ⟨by norm_num, by norm_num, by norm_num, by norm_num, by norm_num, by norm_num⟩,
      rfl⟩

/-- C9: the IoU computation is total.  Whenever the strict-intersection
branch is taken, the union it divides by is strictly positive (the
intersection is positive and bounded by each box's area); when the branch
test fails, for instance for disjoint or merely touching boxes, the result
is `0` with no division performed. -/
theorem c9_overlap_division_safe :
    ∀ b1 b2 : Box,
      ((max b1.x b2.x < min (b1.x + b1.width) (b2.x + b2.width)
          ∧ max b1.y b2.y < min (b1.y + b1.height) (b2.y + b2.height)) →
        0 < b1.area + b2.area
            - (min (b1.x + b1.width) (b2.x + b2.width) - max b1.x b2.x)
              * (min (b1.y + b1.height) (b2.y + b2.height) - max b1.y b2.y))
      ∧ (¬(max b1.x b2.x < min (b1.x + b1.width) (b2.x + b2.width)
            ∧ max b1.y b2.y < min (b1.y + b1.height) (b2.y + b2.height)) →
          calculate_overlap b1 b2 = 0) := by
  intro b1 b2
  constructor
  · rintro ⟨hx, hy⟩
    have h1 : min (b1.x + b1.width) (b2.x + b2.width) ≤ b1.x + b1.width := min_le_left _ _
    have h2 : min (b1.x + b1.width) (b2.x + b2.width) ≤ b2.x + b2.width := min_le_right _ _
    have h3 : b1.x ≤ max b1.x b2.x := le_max_left _ _
    have h4 : b2.x ≤ max b1.x b2.x := le_max_right _ _
    have h5 : min (b1.y + b1.height) (b2.y + b2.height) ≤ b1.y + b1.height := min_le_left _ _
    have h6 : min (b1.y + b1.height) (b2.y + b2.height) ≤ b2.y + b2.height := min_le_right _ _
    have h7 : b1.y ≤ max b1.y b2.y := le_max_left _ _
    have h8 : b2.y ≤ max b1.y b2.y := le_max_right _ _
    set dx : ℤ := min (b1.x + b1.width) (b2.x + b2.width) - max b1.x b2.x with hdx
    set dy : ℤ := min (b1.y + b1.height) (b2.y + b2.height) - max b1.y b2.y with hdy
    have hdxpos : 0 < dx := by omega
    have hdypos : 0 < dy := by omega
    have hdx1 : dx ≤ b1.width := by omega
    have hdy1 : dy ≤ b1.height := by omega
    have hdx2 : dx ≤ b2.width := by omega
    have hdy2 : dy ≤ b2.height := by omega
    have hi1 : dx * dy ≤ b1.width * b1.height :=
      mul_le_mul hdx1 hdy1 hdypos.le (hdxpos.le.trans hdx1)
    have hi2 : dx * dy ≤ b2.width * b2.height :=
      mul_le_mul hdx2 hdy2 hdypos.le (hdxpos.le.trans hdx2)
    have hipos : 0 < dx * dy := mul_pos hdxpos hdypos
    simp only [Box.area]
    linarith
  · intro h
    simp only [calculate_overlap]
    rw [if_neg h]

/-- Witness for C9: the overlapping pair A, B takes the division branch
with a positive union, and a disjoint pair yields IoU `0`. -/
theorem c9_witness :
    (0 < boxA.area + boxB.area
        - (min (boxA.x + boxA.width) (boxB.x + boxB.width) - max boxA.x boxB.x)
          * (min (boxA.y + boxA.height) (boxB.y + boxB.height) - max boxA.y boxB.y))
    ∧ calculate_overlap ⟨0, 0, 10, 10⟩ ⟨100, 100, 10, 10⟩ = 0 :=
  ⟨(c9_overlap_division_safe boxA boxB).1 (by norm_num [boxA, boxB, max_def, min_def]),
    (c9_overlap_division_safe ⟨0, 0, 10, 10⟩ ⟨100, 100, 10, 10⟩).2
      (by norm_num [max_def, min_def])⟩

/-- C10: every box emitted by the line-intersection generator has width and
height strictly above 30 (and hence strictly positive), because the widths
and heights are absolute differences that the loop size-checks before
appending. -/
theorem c10_line_boxes_exceed_30 :
    ∀ (lines : Option (List Seg)) (b : Box),
      b ∈ detect_lines_boxes lines →
        30 < b.width ∧ 30 < b.height ∧ 0 < b.width ∧ 0 < b.height := by
  intro lines b hb
  cases lines with
  | none => cases hb
  | some segs =>
    simp only [detect_lines_boxes] at hb
    obtain ⟨hl, _, hb2⟩ := List.mem_flatMap.mp hb
    obtain ⟨vl, _, hb3⟩ := List.mem_filterMap.mp hb2
    split at hb3
    · split at hb3
      · rename_i hdims
        cases hb3
        exact ⟨hdims.1, hdims.2, lt_trans (by norm_num) hdims.1,
          lt_trans (by norm_num) hdims.2⟩
      · cases hb3
    · cases hb3

/-- Witness for C10: a horizontal and a vertical segment forming a corner
produce the box `{x:5, y:0, w:100, h:100}`, whose dimensions exceed 30. -/
theorem c10_witness :
    30 < (⟨5, 0, 100, 100⟩ : Box).width ∧ 30 < (⟨5, 0, 100, 100⟩ : Box).height
      ∧ 0 < (⟨5, 0, 100, 100⟩ : Box).width ∧ 0 < (⟨5, 0, 100, 100⟩ : Box).height :=
  c10_line_boxes_exceed_30 (some [⟨0, 0, 100, 0⟩, ⟨5, 0, 5, 100⟩]) ⟨5, 0, 100, 100⟩
    (by norm_num [detect_lines_boxes, horizontalLines, verticalLines, min_def, max_def])

/-- C4: with no image-path argument the script emits `[]` and exits with
status `0` (non-error); with an argument naming an unreadable or
undecodable image it emits `[]` and exits with status `1`; the two exit
statuses are distinct, and neither failing run produces any partial
output. -/
theorem c4_missing_arg_and_unreadable_image :
    ∀ {Image LB : Type} (argv : List String) (imread : String → Option Image)
      (pipeline : Image → List LB),
      (argv.length < 2 → pyMain argv imread pipeline = ([], 0))
      ∧ (2 ≤ argv.length → imread (argv.getD 1 "") = none →
          pyMain argv imread pipeline = ([], 1))
      ∧ ∀ {Image2 LB2 : Type} (argv2 : List String) (imread2 : String → Option Image2)
          (pipeline2 : Image2 → List LB2),
          argv.length < 2 → 2 ≤ argv2.length → imread2 (argv2.getD 1 "") = none →
          (pyMain argv imread pipeline).2 ≠ (pyMain argv2 imread2 pipeline2).2 := by
  intro Image LB argv imread pipeline
  have h1 : argv.length < 2 → pyMain argv imread pipeline = ([], 0) := by
    intro h
    rw [pyMain, if_pos h]
  have h2 : ∀ {Image2 LB2 : Type} (argv2 : List String) (imread2 : String → Option Image2)
      (pipeline2 : Image2 → List LB2), 2 ≤ argv2.length → imread2 (argv2.getD 1 "") = none →
      pyMain argv2 imread2 pipeline2 = ([], 1) := by
    intro Image2 LB2 argv2 imread2 pipeline2 h hi
    rw [pyMain, if_neg (not_lt.mpr h), hi]
  refine ⟨h1, h2 argv imread pipeline, ?_⟩
  intro Image2 LB2 argv2 imread2 pipeline2 ha hb hc
  rw [h1 ha, h2 argv2 imread2 pipeline2 hb hc]
  simp

/-- Witness for C4: the zero-argument run returns `([], 0)`, a run on an
undecodable image returns `([], 1)`, and the statuses differ. -/
theorem c4_witness :
    (pyMain ([] : List String) (fun _ => (none : Option Unit)) (fun _ => ([] : List Unit))
        = ([], 0))
    ∧ (pyMain ["detect_ui.py", "shot.png"] (fun _ => (none : Option Unit))
        (fun _ => ([] : List Unit)) = ([], 1))
    ∧ (pyMain ([] : List String) (fun _ => (none : Option Unit))
          (fun _ => ([] : List Unit))).2
        ≠ (pyMain ["detect_ui.py", "shot.png"] (fun _ => (none : Option Unit))
          (fun _ => ([] : List Unit))).2 :=
  ⟨(@c4_missing_arg_and_unreadable_image Unit Unit [] (fun _ => none) (fun _ => [])).1
      (by decide),
    (@c4_missing_arg_and_unreadable_image Unit Unit ["detect_ui.py", "shot.png"]
        (fun _ => none) (fun _ => [])).2.1 (by decide) rfl,
    (@c4_missing_arg_and_unreadable_image Unit Unit [] (fun _ => none) (fun _ => [])).2.2
      ["detect_ui.py", "shot.png"] (fun _ => none) (fun _ => [])
      (by decide) (by decide) rfl⟩

theorem decimalDigits_eq_digits :
    ∀ (fuel n : ℕ), n ≤ fuel → decimalDigits fuel n = Nat.digits 10 n := by
  intro fuel
  induction fuel with
  | zero =>
    intro n hn
    have h0 : n = 0 := Nat.le_zero.mp hn
    subst h0
    simp [decimalDigits]
  | succ f ih =>
    intro n hn
    match n with
    | 0 => simp [decimalDigits]
    | m + 1 =>
      rw [decimalDigits, ih ((m + 1) / 10) (by omega),
        Nat.digits_def' (by norm_num : (1:ℕ) < 10) (Nat.succ_pos m)]

theorem digitChar_inj_lt10 :
    ∀ d1 < 10, ∀ d2 < 10, Nat.digitChar d1 = Nat.digitChar d2 → d1 = d2 := by decide

theorem map_digitChar_inj :
    ∀ (l1 l2 : List ℕ), (∀ d ∈ l1, d < 10) → (∀ d ∈ l2, d < 10) →
      l1.map Nat.digitChar = l2.map Nat.digitChar → l1 = l2 := by
  intro l1
  induction l1 with
  | nil =>
    intro l2 _ _ h
    cases l2 with
    | nil => rfl
    | cons b l2' => simp at h
  | cons a l ih =>
    intro l2 h1 h2 h
    cases l2 with
    | nil => simp at h
    | cons b l2' =>
      simp only [List.map_cons, List.cons.injEq] at h
      have hab : a = b := digitChar_inj_lt10 a (h1 a (by simp)) b (h2 b (by simp)) h.1
      rw [hab, ih l2' (fun d hd => h1 d (by simp [hd])) (fun d hd => h2 d (by simp [hd])) h.2]

theorem decimalChars_injective : Function.Injective decimalChars := by
  intro m n h
  unfold decimalChars at h
  rw [decimalDigits_eq_digits m m le_rfl, decimalDigits_eq_digits n n le_rfl] at h
  have h2 := map_digitChar_inj _ _
    (fun d hd => Nat.digits_lt_base (by norm_num) (List.mem_reverse.mp hd))
    (fun d hd => Nat.digits_lt_base (by norm_num) (List.mem_reverse.mp hd)) h
  have h3 : Nat.digits 10 m = Nat.digits 10 n := by
    have := congrArg List.reverse h2
    simpa using this
  calc m = Nat.ofDigits 10 (Nat.digits 10 m) := (Nat.ofDigits_digits 10 m).symm
    _ = Nat.ofDigits 10 (Nat.digits 10 n) := by rw [h3]
    _ = n := Nat.ofDigits_digits 10 n

theorem uiLabel_injective : Function.Injective uiLabel := by
  intro m n h
  have hd := congrArg String.data h
  simp only [uiLabel, String.data_append] at hd
  exact decimalChars_injective (List.append_cancel_left hd)

theorem enrichFrom_length (fp : Box → List ℚ) (ocr : ℕ → Option String) :
    ∀ (s : ℕ) (boxes : List Box), (enrichFrom fp ocr s boxes).length = boxes.length := by
  intro s boxes
  induction boxes generalizing s with
  | nil => rfl
  | cons b bs ih => simp [enrichFrom, ih]

theorem enrichFrom_getElem? (fp : Box → List ℚ) (ocr : ℕ → Option String) :
    ∀ (boxes : List Box) (s j : ℕ),
      (enrichFrom fp ocr s boxes)[j]? = boxes[j]?.map (enrichOne fp ocr (s + j)) := by
  intro boxes
  induction boxes with
  | nil => intro s j; simp [enrichFrom]
  | cons b bs ih =>
    intro s j
    cases j with
    | zero => simp [enrichFrom]
    | succ j' =>
      have harith : s + 1 + j' = s + (j' + 1) := by omega
      simp only [enrichFrom, List.getElem?_cons_succ, ih (s + 1) j', harith]

theorem enrichFrom_map_label (fp : Box → List ℚ) (ocr : ℕ → Option String) :
    ∀ (boxes : List Box) (s : ℕ),
      (enrichFrom fp ocr s boxes).map (fun lb => lb.label)
        = (List.range boxes.length).map (fun j => uiLabel (s + j + 1)) := by
  intro boxes
  induction boxes with
  | nil => intro s; simp [enrichFrom]
  | cons b bs ih =>
    intro s
    rw [enrichFrom, List.map_cons, List.length_cons, List.range_succ_eq_map,
      List.map_cons, List.map_map, ih (s + 1)]
    refine congrArg₂ List.cons rfl ?_
    have hfun : ((fun j => uiLabel (s + j + 1)) ∘ Nat.succ)
        = fun j => uiLabel (s + 1 + j + 1) := by
      funext j
      simp only [Function.comp_apply]
      congr 1
      omega
    rw [hfun]

/-- C5: the enrichment loop labels the final filtered regions `UI1..UIk`
in order: the output has the input length, the label list is exactly
`[UI1, ..., UIk]` with no gaps or repeats, and the `i`-th labeled record
carries `UI(i+1)` together with the `i`-th region's geometry. -/
theorem c5_labels_are_sequential_and_unique :
    ∀ (fp : Box → List ℚ) (ocr : ℕ → Option String) (boxes : List Box),
      ((labelBoxes fp ocr boxes).length = boxes.length)
      ∧ ((labelBoxes fp ocr boxes).map (fun lb => lb.label)
          = (List.range boxes.length).map (fun i => uiLabel (i + 1)))
      ∧ ((labelBoxes fp ocr boxes).map (fun lb => lb.label)).Nodup
      ∧ ∀ (i : ℕ) (b : Box) (lb : LabeledBox),
          boxes[i]? = some b → (labelBoxes fp ocr boxes)[i]? = some lb →
          lb.label = uiLabel (i + 1) ∧ lb.x = b.x ∧ lb.y = b.y
            ∧ lb.width = b.width ∧ lb.height = b.height := by
  intro fp ocr boxes
  have hmap : (labelBoxes fp ocr boxes).map (fun lb => lb.label)
      = (List.range boxes.length).map (fun i => uiLabel (i + 1)) := by
    have := enrichFrom_map_label fp ocr boxes 0
    simpa [labelBoxes] using this
  refine ⟨enrichFrom_length fp ocr 0 boxes, hmap, ?_, ?_⟩
  · rw [hmap]
    refine List.Nodup.map ?_ (List.nodup_range _)
    intro i j hij
    have := uiLabel_injective hij
    omega
  · intro i b lb hb hlb
    rw [labelBoxes, enrichFrom_getElem? fp ocr boxes 0 i, hb] at hlb
    simp only [Option.map_some'] at hlb
    cases hlb
    refine ⟨?_, rfl, rfl, rfl, rfl⟩
    show uiLabel (0 + i + 1) = uiLabel (i + 1)
    rw [Nat.zero_add]

/-- Witness for C5: on a singleton region list the first labeled record
carries label `UI1` and the region's geometry. -/
theorem c5_witness :
    (enrichOne (fun _ => ([] : List ℚ)) (fun _ => some "go") 0 ⟨0, 0, 60, 40⟩).label
        = uiLabel 1
      ∧ (enrichOne (fun _ => ([] : List ℚ)) (fun _ => some "go") 0 ⟨0, 0, 60, 40⟩).x = 0
      ∧ (enrichOne (fun _ => ([] : List ℚ)) (fun _ => some "go") 0 ⟨0, 0, 60, 40⟩).y = 0
      ∧ (enrichOne (fun _ => ([] : List ℚ)) (fun _ => some "go") 0 ⟨0, 0, 60, 40⟩).width = 60
      ∧ (enrichOne (fun _ => ([] : List ℚ)) (fun _ => some "go") 0 ⟨0, 0, 60, 40⟩).height
        = 40 :=
  (c5_labels_are_sequential_and_unique (fun _ => []) (fun _ => some "go")
      [⟨0, 0, 60, 40⟩]).2.2.2 0 ⟨0, 0, 60, 40⟩ _ rfl rfl

/-- C6: when the OCR call for the region at index `i` raises
(`ocr i = none`), that region's record gets `text = ""` while its color
fingerprint, label and geometry are exactly the values computed for the
region; the loop still produces one record per region, and replacing the
OCR outcome at index `i` by anything else leaves every other region's
record unchanged. -/
theorem c6_ocr_failure_is_isolated :
    ∀ (fp : Box → List ℚ) (ocr ocr' : ℕ → Option String) (boxes : List Box)
      (i : ℕ) (b : Box) (lb : LabeledBox),
      boxes[i]? = some b → (labelBoxes fp ocr boxes)[i]? = some lb → ocr i = none →
      (lb.text = "" ∧ lb.color_fingerprint = fp b ∧ lb.label = uiLabel (i + 1)
        ∧ lb.x = b.x ∧ lb.y = b.y ∧ lb.width = b.width ∧ lb.height = b.height)
      ∧ (labelBoxes fp ocr boxes).length = boxes.length
      ∧ ((∀ j, j ≠ i → ocr' j = ocr j) →
          ∀ j, j ≠ i → (labelBoxes fp ocr' boxes)[j]? = (labelBoxes fp ocr boxes)[j]?) := by
  intro fp ocr ocr' boxes i b lb hb hlb hocr
  refine ⟨?_, enrichFrom_length fp ocr 0 boxes, ?_⟩
  · rw [labelBoxes, enrichFrom_getElem? fp ocr boxes 0 i, hb] at hlb
    simp only [Option.map_some'] at hlb
    cases hlb
    refine ⟨?_, rfl, ?_, rfl, rfl, rfl, rfl⟩
    · show (match ocr (0 + i) with | some t => t | none => "") = ""
      rw [Nat.zero_add, hocr]
    · show uiLabel (0 + i + 1) = uiLabel (i + 1)
      rw [Nat.zero_add]
  · intro hagree j hj
    rw [labelBoxes, labelBoxes, enrichFrom_getElem?, enrichFrom_getElem?]
    cases hbj : boxes[j]? with
    | none => simp
    | some bj =>
      simp only [Option.map_some']
      have hoj := hagree j hj
      simp [enrichOne, Nat.zero_add, hoj]

/-- Witness for C6: a failing OCR call on a singleton region list yields an
empty text field. -/
theorem c6_witness :
    (enrichOne (fun _ => ([] : List ℚ)) (fun _ => (none : Option String)) 0
        ⟨0, 0, 60, 40⟩).text = "" :=
  ((c6_ocr_failure_is_isolated (fun _ => []) (fun _ => none) (fun _ => none)
      [⟨0, 0, 60, 40⟩] 0 ⟨0, 0, 60, 40⟩ _ rfl rfl rfl).1).1

theorem isPrefixOf_self : ∀ p : List Char, p.isPrefixOf p = true := by
  intro p
  induction p with
  | nil => rfl
  | cons c cs ih => simp [List.isPrefixOf, ih]

theorem replaceFuel_nil (pat rep : List Char) (fuel : ℕ) :
    replaceFuel pat rep fuel [] = [] := by
  cases fuel <;> rfl

theorem replaceFuel_suffix_match :
    ∀ (stem pat rep : List Char) (fuel : ℕ), pat ≠ [] → (stem ++ pat).length ≤ fuel →
      (∀ i, i < stem.length → pat.isPrefixOf ((stem ++ pat).drop i) = false) →
      replaceFuel pat rep fuel (stem ++ pat) = stem ++ rep := by
  intro stem
  induction stem with
  | nil =>
    intro pat rep fuel hpat hlen _
    cases fuel with
    | zero =>
      cases pat with
      | nil => exact absurd rfl hpat
      | cons c cs => simp at hlen
    | succ f =>
      cases pat with
      | nil => exact absurd rfl hpat
      | cons c cs =>
        rw [List.nil_append, replaceFuel, if_pos (isPrefixOf_self (c :: cs))]
        simp [List.drop_length, replaceFuel_nil]
  | cons c stem' ih =>
    intro pat rep fuel hpat hlen hnom
    cases fuel with
    | zero => simp at hlen
    | succ f =>
      have h0 : pat.isPrefixOf (c :: (stem' ++ pat)) = false := by
        have h00 := hnom 0 (by simp)
        simp only [List.drop_zero, List.cons_append] at h00
        exact h00
      have hshift : ∀ i, i < stem'.length → pat.isPrefixOf ((stem' ++ pat).drop i) = false := by
        intro i hi
        have h01 := hnom (i + 1) (by simp only [List.length_cons]; omega)
        simpa using h01
      rw [List.cons_append, replaceFuel, if_neg (by simp [h0]),
        ih pat rep f hpat (by simp only [List.cons_append, List.length_cons] at hlen; omega)
          hshift]
      rfl

/-- Counterexample for C7: the output path is computed with Python
`str.replace`, which replaces every occurrence of `.png`, not only a
suffix.  On the input `a.png.png` a suffix-anchored replacement would give
`a.png_annotated.png`, but the script produces
`a_annotated.png_annotated.png`. -/
theorem c7_counterexample :
    output_path "a.png.png" = "a_annotated.png_annotated.png"
      ∧ output_path "a.png.png" ≠ "a.png_annotated.png" := by
  constructor
  · decide
  · decide

/-- C7 (amended): when `.png` occurs in the input path only as its final
suffix, the output path is the input with that suffix replaced by
`_annotated.png`; in general the script replaces every occurrence of
`.png` in the path. -/
theorem c7_amended_suffix_replacement :
    ∀ stem : List Char,
      (∀ i, i < stem.length →
        (".png".data.isPrefixOf ((stem ++ ".png".data).drop i)) = false) →
      output_path (String.mk (stem ++ ".png".data))
        = String.mk (stem ++ "_annotated.png".data) := by
  intro stem h
  unfold output_path pyReplace
  exact congrArg String.mk
    (replaceFuel_suffix_match stem ".png".data "_annotated.png".data _ (by decide) le_rfl h)

/-- Witness for C7: on `a.png`, whose only `.png` occurrence is the final
suffix, the annotated path is `a_annotated.png`. -/
theorem c7_witness : output_path "a.png" = "a_annotated.png" := by
  have h := c7_amended_suffix_replacement ['a'] (by decide)
  exact h
